import Mathlib

/-!
Verification development for the city-liability-analytics repository
(python sources under src/python/src/), centred on the root-cause
analysis module `text_analysis.py` together with the Total_Loss
computations of `kpi_calculation.py`.

Texts are modelled as `List Char`; `none : Option (List Char)` models a
SQL NULL narrative (pandas `NaN`/`None`).  Monetary amounts are modelled
as rationals.  Python expressions that raise are modelled as `Except`.
-/

/-! ### Text normalizer: `clean_text`, text_analysis.py lines 48-82 -/

/-- Model of Python `str.lower` on one character.  Only ASCII letters
matter here: every non-ASCII character is deleted by the following
`[^a-z\s]` filter whether or not it was lowercased first, so the model
lowercases exactly the ASCII uppercase range 65-90. -/
def pyLower (c : Char) : Char :=
  if 65 ≤ c.toNat ∧ c.toNat ≤ 90 then Char.ofNat (c.toNat + 32) else c

/-- Character class `[a-z]` of the regex in `clean_text`. -/
def isLowerAZ (c : Char) : Bool :=
  decide (97 ≤ c.toNat) && decide (c.toNat ≤ 122)

/-- Character class `\s` (space, tab, newline, carriage return, vertical
tab, form feed), also the split points of Python `str.split()`. -/
def isSpaceChar (c : Char) : Bool :=
  decide (c.toNat = 32) || decide (c.toNat = 9) || decide (c.toNat = 10) ||
  decide (c.toNat = 13) || decide (c.toNat = 11) || decide (c.toNat = 12)

/-- Characters kept by `re.sub(r'[^a-z\s]', '', text)`. -/
def keepChar (c : Char) : Bool := isLowerAZ c || isSpaceChar c

/-- Accumulator worker for `str.split()`: splits at whitespace runs and
drops empty chunks.  `acc` holds the current word reversed. -/
def wordsAux (l acc : List Char) : List (List Char) :=
  match l with
  | [] => if acc = [] then [] else [acc.reverse]
  | c :: cs =>
    if isSpaceChar c then
      if acc = [] then wordsAux cs [] else acc.reverse :: wordsAux cs []
    else
      wordsAux cs (c :: acc)

/-- Python `str.split()` with no separator argument. -/
def pySplit (l : List Char) : List (List Char) := wordsAux l []

/-- Token filter of `clean_text`:
`word not in stop_words and len(word) > 1`. -/
def keepToken (sw : List (List Char)) (w : List Char) : Bool :=
  decide (w ∉ sw) && decide (1 < w.length)

/-- Python `' '.join(words)`. -/
def joinWords : List (List Char) → List Char
  | [] => []
  | [w] => w
  | w :: v :: ws => w ++ ' ' :: joinWords (v :: ws)

/-- The token list produced by `clean_text` before the final join.  The
stopword set `sw` is the module-level `stop_words` (loaded once from the
NLTK English corpus, external data); it is passed explicitly here and
all theorems hold for every stopword set. -/
def clean_tokens (sw : List (List Char)) (t : List Char) : List (List Char) :=
  (pySplit ((t.map pyLower).filter keepChar)).filter (keepToken sw)

/-- `clean_text` (text_analysis.py lines 48-82): `pd.isna(text)` gives
the empty string; otherwise lowercase, strip `[^a-z\s]`, split, drop
stopwords and length-1 tokens, and rejoin with single spaces. -/
def clean_text (sw : List (List Char)) (text : Option (List Char)) : List Char :=
  match text with
  | none => []
  | some t => joinWords (clean_tokens sw t)

/-! ### Oversight tagger, text_analysis.py lines 161-176 -/

/-- Whether the first list is a leading segment of the second. -/
def prefixMatch : List Char → List Char → Bool
  | [], _ => true
  | _ :: _, [] => false
  | c :: k, d :: t => decide (c = d) && prefixMatch k t

/-- Python substring containment `k in text` on strings: `substrOf k t`
holds when `k` occurs contiguously anywhere in `t`. -/
def substrOf (k : List Char) : List Char → Bool
  | [] => prefixMatch k []
  | d :: t => prefixMatch k (d :: t) || substrOf k t

/-- The fixed oversight keyword taxonomy, in declaration order
(text_analysis.py lines 161-171). -/
def oversight_keywords : List String :=
  ["inspection", "repair", "maintenance", "neglect", "delay",
   "training", "supervision", "oversight", "protocol",
   "signage", "faulty", "poor", "inadequate", "missing", "broken",
   "debris", "pothole", "uneven", "icy", "spill", "defect",
   "unsafe", "hazard", "warning", "barrier", "condition"]

/-- The tagging lambda of text_analysis.py line 175:
`[keyword for keyword in oversight_keywords if keyword in text]`. -/
def identified_oversights (text : List Char) : List String :=
  oversight_keywords.filter (fun k => substrOf k.toList text)

/-! ### Claim data model

One record of the `claims` table as read by the analysis query
(text_analysis.py lines 115-126).  The table itself stores no
`Total_Loss` column (the loader writes exactly the simulator's CSV
columns); the query computes `Settlement_Amount + Legal_Costs` afresh on
every read. -/

structure Claim where
  claim_id : String
  allegation : Option (List Char)
  incident_type : String
  division : String
  settlement : ℚ
  legal : ℚ
  latitude : Option ℚ
  longitude : Option ℚ
deriving DecidableEq

/-- `(Settlement_Amount + Legal_Costs) AS Total_Loss` of the SQL query in
`perform_root_cause_analysis` (text_analysis.py line 121). -/
def totalLoss (c : Claim) : ℚ := c.settlement + c.legal

/-- `df['Total_Loss'] = df['Settlement_Amount'] + df['Legal_Costs']` of
`calculate_kpis` (kpi_calculation.py line 85). -/
def kpi_total_loss (c : Claim) : ℚ := c.settlement + c.legal

/-- Tag list attached to one claim (`df['Identified_Oversights']`). -/
def tags_of (sw : List (List Char)) (c : Claim) : List String :=
  identified_oversights (clean_text sw c.allegation)

/-- `df_oversights = df[df['Identified_Oversights'].apply(len) > 0]`
(text_analysis.py line 179). -/
def df_oversights (sw : List (List Char)) (claims : List Claim) : List Claim :=
  claims.filter (fun c => decide (0 < (tags_of sw c).length))

/-- One row of `oversight_loss_data` (text_analysis.py lines 193-201):
a (claim, tag) pair carrying the claim's full Total_Loss. -/
structure OversightRecord where
  tag : String
  loss : ℚ
  cid : String
  division : String
deriving DecidableEq

/-- The nested loop of text_analysis.py lines 194-201: one record per
(tagged claim, tag) pair, claims in frame order, tags in taxonomy
order. -/
def oversight_loss_data (sw : List (List Char)) (claims : List Claim) :
    List OversightRecord :=
  (df_oversights sw claims).flatMap (fun c =>
    (tags_of sw c).map (fun t =>
      { tag := t, loss := totalLoss c, cid := c.claim_id, division := c.division }))

/-! ### Stable insertion sort

`Series.sort_values` / `nlargest(keep='first')` semantics: order by the
key, equal keys keeping their input order.  `le a b = true` means `a`
may be placed before `b`; an element is inserted before the first
already-placed element it may precede, so equal keys stay in input
order. -/

def insertBy {α : Type} (le : α → α → Bool) (a : α) : List α → List α
  | [] => [a]
  | b :: l => if le a b then a :: b :: l else b :: insertBy le a l

def sortBy {α : Type} (le : α → α → Bool) : List α → List α
  | [] => []
  | a :: l => insertBy le a (sortBy le l)

/-! ### Code-point lexicographic order on strings

`groupby` sorts its keys the way Python compares strings: lexicographic
on code points.  Defined executably here. -/

def charLtb : List Char → List Char → Bool
  | [], [] => false
  | [], _ :: _ => true
  | _ :: _, [] => false
  | c :: cs, d :: ds =>
    if c.toNat < d.toNat then true
    else if d.toNat < c.toNat then false
    else charLtb cs ds

/-- Non-strict code-point order on strings. -/
def strLeb (s t : String) : Bool := !(charLtb t.toList s.toList)

/-- Strict code-point order on strings. -/
def strLtb (s t : String) : Bool := charLtb s.toList t.toList

/-! ### Financial aggregation, text_analysis.py lines 205-228 -/

/-- `groupby('Oversight')` key list: the distinct tags, in ascending
key order (pandas `groupby` sorts group keys). -/
def sortKeys (ks : List String) : List String := sortBy strLeb ks

/-- One output row of the merge of `total_loss_by_oversight` with
`claim_count_by_oversight`: per-tag total loss and distinct-claim
count. -/
structure AggRow where
  tag : String
  total : ℚ
  count : Nat
deriving DecidableEq

/-- `oversight_analysis['Avg_Loss_Per_Claim']`
(text_analysis.py lines 226-228). -/
def avg_loss_per_claim (r : AggRow) : ℚ := r.total / (r.count : ℚ)

/-- Per-key aggregation before the value sort: for each distinct tag
(ascending key order), the sum of `Total_Loss` over its records and the
number of distinct `Claim_ID`s among them (`nunique`). -/
def aggRows (recs : List OversightRecord) : List AggRow :=
  (sortKeys ((recs.map OversightRecord.tag).dedup)).map (fun k =>
    let sub := recs.filter (fun r => r.tag == k)
    { tag := k,
      total := (sub.map OversightRecord.loss).sum,
      count := ((sub.map OversightRecord.cid).dedup).length })

/-- Comparison of `sort_values('Total_Loss', ascending=False)` on the
aggregated rows. -/
def rowLe (a b : AggRow) : Bool := decide (b.total ≤ a.total)

/-- `total_loss_by_oversight` sorted descending and merged with the
claim counts (text_analysis.py lines 205-228): the merge on the key
preserves the order of the sorted left frame, so the result is the
per-key rows sorted by total loss descending. -/
def oversight_analysis (recs : List OversightRecord) : List AggRow :=
  sortBy rowLe (aggRows recs)

/-! ### Geospatial stage, text_analysis.py lines 265-419 -/

/-- `df_valid_geo = df.dropna(subset=['Latitude', 'Longitude'])`
(text_analysis.py line 269). -/
def df_valid_geo (claims : List Claim) : List Claim :=
  claims.filter (fun c => c.latitude.isSome && c.longitude.isSome)

/-- Comparison used by `nlargest(200, 'Total_Loss')`. -/
def claimLe (a b : Claim) : Bool := decide (totalLoss b ≤ totalLoss a)

/-- `high_loss_claims = df_valid_geo.nlargest(200, 'Total_Loss')`
(text_analysis.py line 298): the 200 largest by Total_Loss, descending,
`keep='first'` resolving ties by frame order. -/
def high_loss_claims (claims : List Claim) : List Claim :=
  (sortBy claimLe (df_valid_geo claims)).take 200

/-- The narrative fragment of the marker popup (text_analysis.py line
384): `row['Allegation_Details'][:400]` followed by `'...'` when the
narrative is longer than 400 characters.  On a NULL narrative the
slicing of `None` raises `TypeError`. -/
def truncatedNarrative (s : Option (List Char)) : Except String (List Char) :=
  match s with
  | none => Except.error ("TypeError")
  | some t => Except.ok (t.take 400 ++ (if 400 < t.length then [ '.', '.', '.'] else []))

/-- The marker loop of text_analysis.py lines 301-419: for each selected
claim with both coordinates present, build the popup (which evaluates
the narrative fragment) and count the marker; a raised exception aborts
the loop. -/
def renderMarkers : List Claim → Except String Nat
  | [] => Except.ok 0
  | c :: cs =>
    if c.latitude.isSome && c.longitude.isSome then
      match truncatedNarrative c.allegation with
      | Except.error e => Except.error e
      | Except.ok _ => (renderMarkers cs).map (· + 1)
    else renderMarkers cs

/-! ### Summary arithmetic, text_analysis.py lines 141-148 and 179-182 -/

/-- Python `/` on numbers: raises `ZeroDivisionError` on a zero
denominator. -/
def pyDiv (a b : ℚ) : Except String ℚ :=
  if b = 0 then Except.error ("ZeroDivisionError") else Except.ok (a / b)

/-- The oversight detection rate
`len(df_oversights) / len(df) * 100` (text_analysis.py lines 182 and
435). -/
def detection_rate (sw : List (List Char)) (claims : List Claim) :
    Except String ℚ :=
  (pyDiv ((df_oversights sw claims).length : ℚ) ((claims.length : ℚ))).map (· * 100)

/-- The keyword-frequency corpus
`' '.join(df['Cleaned_Allegation_Details']).split()`
(text_analysis.py line 145). -/
def all_words (sw : List (List Char)) (claims : List Claim) : List (List Char) :=
  pySplit (joinWords (claims.map (fun c => clean_text sw c.allegation)))

/-! ### Lemmas about the stable insertion sort -/

theorem insertBy_perm {α : Type} (le : α → α → Bool) (a : α) (l : List α) :
    (insertBy le a l).Perm (a :: l) := by
  induction l with
  | nil => simp [insertBy]
  | cons b l ih =>
    cases hab : le a b with
    | true => simp [insertBy, hab]
    | false =>
      simp only [insertBy, hab, Bool.false_eq_true, if_false]
      exact (ih.cons b).trans (List.Perm.swap a b l)

theorem sortBy_perm {α : Type} (le : α → α → Bool) (l : List α) :
    (sortBy le l).Perm l := by
  induction l with
  | nil => simp [sortBy]
  | cons a l ih => exact (insertBy_perm le a (sortBy le l)).trans (ih.cons a)

theorem insertBy_sorted {α : Type} (le : α → α → Bool)
    (htot : ∀ x y, le x y = false → le y x = true)
    (htrans : ∀ x y z, le x y = true → le y z = true → le x z = true)
    (a : α) (l : List α) (hl : l.Pairwise (fun x y => le x y = true)) :
    (insertBy le a l).Pairwise (fun x y => le x y = true) := by
  induction l with
  | nil => simp [insertBy]
  | cons b l ih =>
    rcases List.pairwise_cons.mp hl with ⟨hb, hl'⟩
    cases hab : le a b with
    | true =>
      simp only [insertBy, hab, if_true]
      refine List.Pairwise.cons ?_ hl
      intro y hy
      rcases List.mem_cons.mp hy with rfl | hy
      · exact hab
      · exact htrans a b y hab (hb y hy)
    | false =>
      simp only [insertBy, hab, Bool.false_eq_true, if_false]
      refine List.Pairwise.cons ?_ (ih hl')
      intro y hy
      rcases List.mem_cons.mp ((insertBy_perm le a l).mem_iff.mp hy) with rfl | hy
      · exact htot _ _ hab
      · exact hb y hy

theorem sortBy_sorted {α : Type} (le : α → α → Bool)
    (htot : ∀ x y, le x y = false → le y x = true)
    (htrans : ∀ x y z, le x y = true → le y z = true → le x z = true)
    (l : List α) : (sortBy le l).Pairwise (fun x y => le x y = true) := by
  induction l with
  | nil => simp [sortBy]
  | cons a l ih => exact insertBy_sorted le htot htrans a (sortBy le l) ih

theorem insertBy_stable {α : Type} (le : α → α → Bool) {S : α → α → Prop}
    (a : α) (l : List α) (ha : ∀ b ∈ l, S a b)
    (hl : l.Pairwise (fun x y => le y x = false ∨ S x y)) :
    (insertBy le a l).Pairwise (fun x y => le y x = false ∨ S x y) := by
  induction l with
  | nil => simp [insertBy]
  | cons b l ih =>
    rcases List.pairwise_cons.mp hl with ⟨hb, hl'⟩
    cases hab : le a b with
    | true =>
      simp only [insertBy, hab, if_true]
      refine List.Pairwise.cons ?_ hl
      intro y hy
      exact Or.inr (ha y hy)
    | false =>
      simp only [insertBy, hab, Bool.false_eq_true, if_false]
      refine List.Pairwise.cons ?_
        (ih (fun x hx => ha x (List.mem_cons_of_mem b hx)) hl')
      intro y hy
      rcases List.mem_cons.mp ((insertBy_perm le a l).mem_iff.mp hy) with rfl | hy
      · exact Or.inl hab
      · exact hb y hy

theorem sortBy_stable {α : Type} (le : α → α → Bool) {S : α → α → Prop}
    (l : List α) (hl : l.Pairwise S) :
    (sortBy le l).Pairwise (fun x y => le y x = false ∨ S x y) := by
  induction l with
  | nil => simp [sortBy]
  | cons a l ih =>
    rcases List.pairwise_cons.mp hl with ⟨ha, hl'⟩
    exact insertBy_stable le a (sortBy le l)
      (fun b hb => ha b ((sortBy_perm le l).mem_iff.mp hb)) (ih hl')

theorem filter_insertBy_pos {α : Type} (le : α → α → Bool) (p : α → Bool)
    (a : α) (l : List α) (hpa : p a = true)
    (h : ∀ b, p b = true → le a b = true) :
    (insertBy le a l).filter p = a :: l.filter p := by
  induction l with
  | nil => simp [insertBy, hpa]
  | cons b l ih =>
    cases hab : le a b with
    | true => simp [insertBy, hab, hpa]
    | false =>
      have hpb : p b = false := by
        cases hpb : p b with
        | false => rfl
        | true => rw [h b hpb] at hab; exact absurd hab (by simp)
      simp [insertBy, hab, hpb, ih]

theorem filter_insertBy_neg {α : Type} (le : α → α → Bool) (p : α → Bool)
    (a : α) (l : List α) (hpa : p a = false) :
    (insertBy le a l).filter p = l.filter p := by
  induction l with
  | nil => simp [insertBy, hpa]
  | cons b l ih =>
    cases hab : le a b with
    | true => simp [insertBy, hab, hpa]
    | false =>
      cases hpb : p b with
      | true => simp [insertBy, hab, hpb, ih]
      | false => simp [insertBy, hab, hpb, ih]

theorem filter_sortBy {α : Type} (le : α → α → Bool) (p : α → Bool)
    (h : ∀ x y, p x = true → p y = true → le x y = true) (l : List α) :
    (sortBy le l).filter p = l.filter p := by
  induction l with
  | nil => simp [sortBy]
  | cons a l ih =>
    cases hpa : p a with
    | true =>
      have := filter_insertBy_pos le p a (sortBy le l) hpa (fun b hb => h a b hpa hb)
      simp only [sortBy, this, ih]
      simp [hpa]
    | false =>
      have := filter_insertBy_neg le p a (sortBy le l) hpa
      simp only [sortBy, this, ih]
      simp [hpa]

/-! ### Lemmas about the code-point order -/

theorem char_eq_of_toNat_eq {c d : Char} (h : c.toNat = d.toNat) : c = d := by
  have hv : c.val = d.val := UInt32.toNat.inj h
  cases c; cases d; simp_all

theorem string_eq_of_toList_eq {s t : String} (h : s.toList = t.toList) : s = t := by
  simpa using congrArg String.mk h

theorem charLtb_asymm : ∀ {s t : List Char}, charLtb s t = true → charLtb t s = false := by
  intro s
  induction s with
  | nil =>
    intro t h
    cases t with
    | nil => simp [charLtb] at h
    | cons d ds => simp [charLtb]
  | cons c cs ih =>
    intro t h
    cases t with
    | nil => simp [charLtb] at h
    | cons d ds =>
      simp only [charLtb] at h ⊢
      by_cases h1 : c.toNat < d.toNat
      · have h2 : ¬ d.toNat < c.toNat := by omega
        simp [h1, h2]
      · by_cases h2 : d.toNat < c.toNat
        · simp [h1, h2] at h
        · simp only [h1, h2, if_false] at h
          simp only [h1, h2, if_false]
          exact ih h

theorem charLtb_trans : ∀ {s t u : List Char},
    charLtb s t = true → charLtb t u = true → charLtb s u = true := by
  intro s
  induction s with
  | nil =>
    intro t u hst htu
    cases t with
    | nil => simp [charLtb] at hst
    | cons d ds =>
      cases u with
      | nil => simp [charLtb] at htu
      | cons e es => simp [charLtb]
  | cons c cs ih =>
    intro t u hst htu
    cases t with
    | nil => simp [charLtb] at hst
    | cons d ds =>
      cases u with
      | nil => simp [charLtb] at htu
      | cons e es =>
        simp only [charLtb] at hst htu ⊢
        by_cases h1 : c.toNat < d.toNat
        · by_cases h2 : d.toNat < e.toNat
          · simp [show c.toNat < e.toNat by omega]
          · by_cases h3 : e.toNat < d.toNat
            · simp [h2, h3] at htu
            · have : d.toNat = e.toNat := by omega
              simp [show c.toNat < e.toNat by omega]
        · by_cases h4 : d.toNat < c.toNat
          · simp [h1, h4] at hst
          · have hcd : c.toNat = d.toNat := by omega
            by_cases h2 : d.toNat < e.toNat
            · simp [show c.toNat < e.toNat by omega]
            · by_cases h3 : e.toNat < d.toNat
              · simp [h2, h3] at htu
              · have hde : d.toNat = e.toNat := by omega
                simp only [h1, h4, if_false] at hst
                simp only [h2, h3, if_false] at htu
                simp only [show ¬ c.toNat < e.toNat by omega,
                  show ¬ e.toNat < c.toNat by omega, if_false]
                exact ih hst htu

theorem charLtb_conn : ∀ {s t : List Char},
    charLtb s t = false → charLtb t s = false → s = t := by
  intro s
  induction s with
  | nil =>
    intro t hst _
    cases t with
    | nil => rfl
    | cons d ds => simp [charLtb] at hst
  | cons c cs ih =>
    intro t hst hts
    cases t with
    | nil => simp [charLtb] at hts
    | cons d ds =>
      simp only [charLtb] at hst hts
      by_cases h1 : c.toNat < d.toNat
      · simp [h1] at hst
      · by_cases h2 : d.toNat < c.toNat
        · simp [h1, h2] at hst
          simp [h2] at hts
        · simp only [h1, h2, if_false] at hst hts
          have hc : c = d := char_eq_of_toNat_eq (by omega)
          rw [hc, ih hst hts]

theorem strLeb_total : ∀ x y : String, strLeb x y = false → strLeb y x = true := by
  intro x y h
  simp only [strLeb, Bool.not_eq_false'] at h
  simp only [strLeb, Bool.not_eq_true']
  exact charLtb_asymm h

theorem strLeb_trans : ∀ x y z : String,
    strLeb x y = true → strLeb y z = true → strLeb x z = true := by
  intro x y z hxy hyz
  simp only [strLeb, Bool.not_eq_true'] at hxy hyz ⊢
  by_contra hzx
  rw [Bool.not_eq_false] at hzx
  cases hxy2 : charLtb x.toList y.toList with
  | true =>
    have h := charLtb_trans hzx hxy2
    rw [h] at hyz
    exact absurd hyz (by simp)
  | false =>
    have hx : x.toList = y.toList := charLtb_conn hxy2 hxy
    rw [hx] at hzx
    rw [hzx] at hyz
    exact absurd hyz (by simp)

theorem strLtb_of_leb_of_ne {x y : String} (hle : strLeb x y = true)
    (hne : x ≠ y) : strLtb x y = true := by
  simp only [strLeb, Bool.not_eq_true'] at hle
  simp only [strLtb]
  cases hxy : charLtb x.toList y.toList with
  | true => rfl
  | false =>
    exact absurd (string_eq_of_toList_eq (charLtb_conn hxy hle)) hne

/-! ### Lemmas about the substring test -/

theorem prefixMatch_iff : ∀ k t : List Char, prefixMatch k t = true ↔ ∃ r, t = k ++ r := by
  intro k
  induction k with
  | nil => intro t; simp [prefixMatch]
  | cons c k ih =>
    intro t
    cases t with
    | nil => simp [prefixMatch]
    | cons d t' =>
      simp only [prefixMatch, Bool.and_eq_true, decide_eq_true_eq, ih]
      constructor
      · rintro ⟨rfl, r, rfl⟩; exact ⟨r, rfl⟩
      · rintro ⟨r, h⟩
        injection h with h1 h2
        exact ⟨h1.symm, r, h2⟩

theorem substrOf_iff : ∀ k t : List Char, substrOf k t = true ↔ ∃ l r, t = l ++ k ++ r := by
  intro k t
  induction t with
  | nil =>
    simp only [substrOf, prefixMatch_iff]
    constructor
    · rintro ⟨r, h⟩; exact ⟨[], r, by simpa using h⟩
    · rintro ⟨l, r, h⟩
      rcases List.append_eq_nil.mp (List.append_eq_nil.mp h.symm).1 with ⟨h1, h2⟩
      exact ⟨r, by simp [h2, (List.append_eq_nil.mp h.symm).2]⟩
  | cons d t' ih =>
    simp only [substrOf, Bool.or_eq_true, prefixMatch_iff, ih]
    constructor
    · rintro (⟨r, h⟩ | ⟨l, r, h⟩)
      · exact ⟨[], r, by simpa using h⟩
      · exact ⟨d :: l, r, by simp [h]⟩
    · rintro ⟨l, r, h⟩
      cases l with
      | nil => exact Or.inl ⟨r, by simpa using h⟩
      | cons x l' =>
        right
        injection h with h1 h2
        exact ⟨l', r, h2⟩

/-! ### Lemmas about the normalizer -/

theorem wordsAux_chars {P : Char → Prop} :
    ∀ (l acc : List Char), (∀ c ∈ l, isSpaceChar c = false → P c) →
      (∀ c ∈ acc, P c ∧ isSpaceChar c = false) →
      ∀ w ∈ wordsAux l acc, ∀ c ∈ w, P c ∧ isSpaceChar c = false := by
  intro l
  induction l with
  | nil =>
    intro acc _ hacc w hw c hc
    simp only [wordsAux] at hw
    by_cases h : acc = []
    · simp [h] at hw
    · simp only [h, if_false, List.mem_singleton] at hw
      subst hw
      exact hacc c (by simpa using hc)
  | cons x l ih =>
    intro acc hl hacc w hw c hc
    simp only [wordsAux] at hw
    cases hsx : isSpaceChar x with
    | true =>
      rw [hsx] at hw
      simp only [if_true] at hw
      by_cases h : acc = []
      · simp only [h, if_true] at hw
        exact ih [] (fun c hc hs => hl c (List.mem_cons_of_mem x hc) hs)
          (by simp) w hw c hc
      · simp only [h, if_false] at hw
        rcases List.mem_cons.mp hw with rfl | hw
        · exact hacc c (by simpa using hc)
        · exact ih [] (fun c hc hs => hl c (List.mem_cons_of_mem x hc) hs)
            (by simp) w hw c hc
    | false =>
      rw [hsx] at hw
      simp only [Bool.false_eq_true, if_false] at hw
      refine ih (x :: acc) (fun c hc hs => hl c (List.mem_cons_of_mem x hc) hs) ?_ w hw c hc
      intro e he
      rcases List.mem_cons.mp he with rfl | he
      · exact ⟨hl e (List.mem_cons_self _ _) hsx, hsx⟩
      · exact hacc e he

theorem isLowerAZ_not_space {c : Char} (h : isLowerAZ c = true) :
    isSpaceChar c = false := by
  simp only [isLowerAZ, Bool.and_eq_true, decide_eq_true_eq] at h
  simp only [isSpaceChar, Bool.or_eq_false_iff, decide_eq_false_iff_not]
  omega

theorem clean_tokens_spec (sw : List (List Char)) (t : List Char) :
    ∀ w ∈ clean_tokens sw t,
      1 < w.length ∧ w ∉ sw ∧ ∀ c ∈ w, isLowerAZ c = true := by
  intro w hw
  rcases List.mem_filter.mp hw with ⟨hmem, hkeep⟩
  simp only [keepToken, Bool.and_eq_true, decide_eq_true_eq] at hkeep
  refine ⟨hkeep.2, hkeep.1, ?_⟩
  intro c hc
  have hchars := wordsAux_chars (P := fun c => keepChar c = true)
    ((t.map pyLower).filter keepChar) []
    (fun c hc _ => (List.mem_filter.mp hc).2) (by simp) w hmem c hc
  rcases hchars with ⟨hkc, hsp⟩
  simp only [keepChar, Bool.or_eq_true] at hkc
  rcases hkc with h | h
  · exact h
  · rw [h] at hsp; cases hsp

theorem joinWords_mem : ∀ (ws : List (List Char)) (c : Char),
    c ∈ joinWords ws → (∃ w ∈ ws, c ∈ w) ∨ c = ' ' := by
  intro ws
  induction ws with
  | nil => simp [joinWords]
  | cons w ws ih =>
    cases ws with
    | nil =>
      intro c hc
      exact Or.inl ⟨w, by simp, by simpa [joinWords] using hc⟩
    | cons v ws' =>
      intro c hc
      simp only [joinWords] at hc
      rcases List.mem_append.mp hc with h | h
      · exact Or.inl ⟨w, by simp, h⟩
      · rcases List.mem_cons.mp h with rfl | h
        · exact Or.inr rfl
        · rcases ih c h with ⟨u, hu, hcu⟩ | h
          · exact Or.inl ⟨u, List.mem_cons_of_mem _ hu, hcu⟩
          · exact Or.inr h

theorem pyLower_fixed {c : Char} (h : isLowerAZ c = true ∨ c = ' ') :
    pyLower c = c := by
  rcases h with h | rfl
  · simp only [isLowerAZ, Bool.and_eq_true, decide_eq_true_eq] at h
    rw [pyLower, if_neg (by omega)]
  · rfl

theorem keepChar_of {c : Char} (h : isLowerAZ c = true ∨ c = ' ') :
    keepChar c = true := by
  rcases h with h | rfl
  · simp [keepChar, h]
  · rfl

theorem wordsAux_append : ∀ (t r acc : List Char),
    (∀ c ∈ t, isSpaceChar c = false) →
    wordsAux (t ++ r) acc = wordsAux r (t.reverse ++ acc) := by
  intro t
  induction t with
  | nil => intro r acc _; simp
  | cons x t ih =>
    intro r acc h
    have hx : isSpaceChar x = false := h x (List.mem_cons_self _ _)
    have h2 : wordsAux (t ++ r) (x :: acc) = wordsAux r (t.reverse ++ (x :: acc)) :=
      ih r (x :: acc) (fun c hc => h c (List.mem_cons_of_mem x hc))
    calc wordsAux ((x :: t) ++ r) acc
        = wordsAux (t ++ r) (x :: acc) := by
          simp only [List.cons_append, wordsAux, hx, Bool.false_eq_true, if_false]
          rfl
      _ = wordsAux r (t.reverse ++ (x :: acc)) := h2
      _ = wordsAux r ((x :: t).reverse ++ acc) := by simp

theorem pySplit_joinWords : ∀ ws : List (List Char),
    (∀ w ∈ ws, w ≠ [] ∧ ∀ c ∈ w, isSpaceChar c = false) →
    pySplit (joinWords ws) = ws := by
  intro ws
  induction ws with
  | nil => intro _; rfl
  | cons w ws ih =>
    intro h
    obtain ⟨hw, hwc⟩ := h w (List.mem_cons_self _ _)
    cases ws with
    | nil =>
      simp only [joinWords, pySplit]
      have h1 : wordsAux (w ++ []) [] = wordsAux [] (w.reverse ++ []) :=
        wordsAux_append w [] [] hwc
      simp only [List.append_nil] at h1
      rw [h1]
      simp [wordsAux, hw]
    | cons v ws' =>
      simp only [joinWords, pySplit] at ih ⊢
      have h1 : wordsAux (w ++ ' ' :: joinWords (v :: ws')) [] =
          wordsAux (' ' :: joinWords (v :: ws')) (w.reverse ++ []) :=
        wordsAux_append w _ [] hwc
      rw [h1]
      simp only [List.append_nil, wordsAux]
      have hsp : isSpaceChar ' ' = true := rfl
      rw [hsp]
      simp only [if_true, List.reverse_eq_nil_iff, hw, if_false,
        List.reverse_reverse]
      rw [ih (fun u hu => h u (List.mem_cons_of_mem w hu))]

theorem map_id_of_mem {α : Type} (f : α → α) (l : List α)
    (h : ∀ x ∈ l, f x = x) : l.map f = l := by
  conv_rhs => rw [show l = l.map id from (List.map_id l).symm]
  exact List.map_congr_left h

theorem clean_tokens_join (sw : List (List Char)) (ws : List (List Char))
    (h : ∀ w ∈ ws, 1 < w.length ∧ w ∉ sw ∧ ∀ c ∈ w, isLowerAZ c = true) :
    clean_tokens sw (joinWords ws) = ws := by
  have hjoin : ∀ c ∈ joinWords ws, isLowerAZ c = true ∨ c = ' ' := by
    intro c hc
    rcases joinWords_mem ws c hc with ⟨w, hw, hcw⟩ | hc'
    · exact Or.inl ((h w hw).2.2 c hcw)
    · exact Or.inr hc'
  have hmap : (joinWords ws).map pyLower = joinWords ws :=
    map_id_of_mem pyLower _ (fun c hc => pyLower_fixed (hjoin c hc))
  have hfilter : (joinWords ws).filter keepChar = joinWords ws :=
    List.filter_eq_self.mpr (fun c hc => keepChar_of (hjoin c hc))
  have hsplit : pySplit (joinWords ws) = ws := by
    apply pySplit_joinWords
    intro w hw
    refine ⟨?_, ?_⟩
    · intro he
      have := (h w hw).1
      rw [he] at this
      simp at this
    · intro c hc
      exact isLowerAZ_not_space ((h w hw).2.2 c hc)
  have hkeep : ws.filter (keepToken sw) = ws := by
    apply List.filter_eq_self.mpr
    intro w hw
    rcases h w hw with ⟨h1, h2, _⟩
    simp [keepToken, h1, h2]
  rw [clean_tokens, hmap, hfilter, hsplit, hkeep]

theorem clean_text_idem_aux (sw : List (List Char)) (t : List Char) :
    clean_text sw (some (clean_text sw (some t))) = clean_text sw (some t) := by
  simp only [clean_text]
  rw [clean_tokens_join sw _ (clean_tokens_spec sw t)]

/-! ### Lemmas about the financial aggregation -/

theorem sum_filter_not_filter {α : Type} (p : α → Bool) (f : α → ℚ) (l : List α) :
    ((l.filter p).map f).sum + ((l.filter (fun x => !(p x))).map f).sum
      = (l.map f).sum := by
  induction l with
  | nil => simp
  | cons a l ih =>
    cases hpa : p a with
    | true =>
      simp only [List.filter_cons, hpa, Bool.not_true, Bool.false_eq_true,
        if_true, if_false, List.map_cons, List.sum_cons]
      rw [add_assoc, ih]
    | false =>
      simp only [List.filter_cons, hpa, Bool.not_false, Bool.false_eq_true,
        if_true, if_false, List.map_cons, List.sum_cons]
      rw [← add_assoc, add_comm (((l.filter p).map f).sum) (f a), add_assoc, ih]

theorem sum_over_keys : ∀ (keys : List String) (recs : List OversightRecord),
    keys.Nodup → (∀ r ∈ recs, r.tag ∈ keys) →
    (keys.map (fun k =>
      ((recs.filter (fun r => r.tag == k)).map OversightRecord.loss).sum)).sum
      = (recs.map OversightRecord.loss).sum := by
  intro keys
  induction keys with
  | nil =>
    intro recs _ hc
    have hrecs : recs = [] := by
      cases recs with
      | nil => rfl
      | cons r rs => exact absurd (hc r (List.mem_cons_self _ _)) (List.not_mem_nil _)
    simp [hrecs]
  | cons k ks ih =>
    intro recs hnd hc
    rcases List.nodup_cons.mp hnd with ⟨hk, hnd'⟩
    have hks : ∀ k' ∈ ks,
        recs.filter (fun r => r.tag == k')
          = (recs.filter (fun r => !(r.tag == k))).filter (fun r => r.tag == k') := by
      intro k' hk'
      rw [List.filter_filter]
      apply List.filter_congr
      intro r _
      cases hrk : (r.tag == k') with
      | true =>
        have htag : r.tag = k' := by simpa using hrk
        have hne : (r.tag == k) = false := by
          simp only [htag, beq_eq_false_iff_ne, ne_eq]
          intro he
          exact hk (he ▸ hk')
        simp [hrk, hne]
      | false => simp [hrk]
    have hmap : (ks.map (fun k' =>
        ((recs.filter (fun r => r.tag == k')).map OversightRecord.loss).sum)).sum
        = (ks.map (fun k' =>
        (((recs.filter (fun r => !(r.tag == k))).filter
          (fun r => r.tag == k')).map OversightRecord.loss).sum)).sum := by
      congr 1
      apply List.map_congr_left
      intro k' hk'
      rw [hks k' hk']
    have hih : (ks.map (fun k' =>
        (((recs.filter (fun r => !(r.tag == k))).filter
          (fun r => r.tag == k')).map OversightRecord.loss).sum)).sum
        = ((recs.filter (fun r => !(r.tag == k))).map OversightRecord.loss).sum := by
      apply ih _ hnd'
      intro r hr
      rcases List.mem_filter.mp hr with ⟨hrmem, hrne⟩
      have := hc r hrmem
      rcases List.mem_cons.mp this with he | h
      · rw [he] at hrne; simp at hrne
      · exact h
    simp only [List.map_cons, List.sum_cons]
    rw [hmap, hih, sum_filter_not_filter]

theorem flatMap_loss_sum (sw : List (List Char)) : ∀ l : List Claim,
    ((l.flatMap (fun c => (tags_of sw c).map (fun t =>
        ({ tag := t, loss := totalLoss c, cid := c.claim_id,
           division := c.division } : OversightRecord)))).map
      OversightRecord.loss).sum
      = (l.map (fun c => ((tags_of sw c).length : ℚ) * totalLoss c)).sum := by
  intro l
  induction l with
  | nil => rfl
  | cons c l ih =>
    simp only [List.flatMap_cons, List.map_append, List.sum_append, ih,
      List.map_cons, List.sum_cons]
    congr 1
    rw [List.map_map]
    have h1 : ((tags_of sw c).map (fun _ => totalLoss c)).sum
        = ((tags_of sw c).length : ℚ) * totalLoss c := by
      rw [List.map_const', List.sum_replicate, nsmul_eq_mul]
    exact h1

theorem sortKeys_nodup (ks : List String) (h : ks.Nodup) : (sortKeys ks).Nodup :=
  ((sortBy_perm strLeb ks).nodup_iff).mpr h

theorem mem_sortKeys {k : String} {ks : List String} :
    k ∈ sortKeys ks ↔ k ∈ ks := (sortBy_perm strLeb ks).mem_iff

theorem aggRows_count_le (recs : List OversightRecord) (ids : List String)
    (hsub : ∀ r ∈ recs, r.cid ∈ ids) :
    ∀ row ∈ aggRows recs, row.count ≤ ids.length := by
  intro row hrow
  rcases List.mem_map.mp hrow with ⟨k, _, rfl⟩
  show (((recs.filter (fun r => r.tag == k)).map OversightRecord.cid).dedup).length
    ≤ ids.length
  have h1 : (((recs.filter (fun r => r.tag == k)).map OversightRecord.cid).dedup).length
      = ((recs.filter (fun r => r.tag == k)).map OversightRecord.cid).toFinset.card :=
    (List.card_toFinset _).symm
  rw [h1]
  have h2 : ((recs.filter (fun r => r.tag == k)).map OversightRecord.cid).toFinset
      ⊆ ids.toFinset := by
    intro x hx
    rcases List.mem_map.mp (List.mem_toFinset.mp hx) with ⟨r, hr, rfl⟩
    exact List.mem_toFinset.mpr (hsub r (List.mem_of_mem_filter hr))
  exact le_trans (Finset.card_le_card h2) (List.toFinset_card_le ids)

theorem aggRows_count_pos (recs : List OversightRecord) :
    ∀ row ∈ aggRows recs, 1 ≤ row.count := by
  intro row hrow
  rcases List.mem_map.mp hrow with ⟨k, hk, rfl⟩
  have hk2 : k ∈ recs.map OversightRecord.tag :=
    List.mem_dedup.mp (mem_sortKeys.mp hk)
  rcases List.mem_map.mp hk2 with ⟨r, hr, rfl⟩
  have hrsub : r ∈ recs.filter (fun s => s.tag == r.tag) :=
    List.mem_filter.mpr ⟨hr, by simp⟩
  have hcid : r.cid ∈
      ((recs.filter (fun s => s.tag == r.tag)).map OversightRecord.cid).dedup :=
    List.mem_dedup.mpr (List.mem_map.mpr ⟨r, hrsub, rfl⟩)
  exact List.length_pos.mpr (List.ne_nil_of_mem hcid)

theorem oversight_analysis_total_sum (recs : List OversightRecord) :
    ((oversight_analysis recs).map AggRow.total).sum
      = (recs.map OversightRecord.loss).sum := by
  have hperm : (((sortBy rowLe (aggRows recs)).map AggRow.total)).Perm
      ((aggRows recs).map AggRow.total) := (sortBy_perm _ _).map _
  rw [oversight_analysis, hperm.sum_eq, aggRows, List.map_map]
  exact sum_over_keys _ recs
    (sortKeys_nodup _ (List.nodup_dedup _))
    (fun r hr => mem_sortKeys.mpr (List.mem_dedup.mpr
      (List.mem_map.mpr ⟨r, hr, rfl⟩)))

theorem rowLe_total : ∀ x y : AggRow, rowLe x y = false → rowLe y x = true := by
  intro x y h
  simp only [rowLe, decide_eq_false_iff_not, not_le] at h
  simp only [rowLe, decide_eq_true_eq]
  exact le_of_lt h

theorem rowLe_trans : ∀ x y z : AggRow,
    rowLe x y = true → rowLe y z = true → rowLe x z = true := by
  intro x y z h1 h2
  simp only [rowLe, decide_eq_true_eq] at h1 h2 ⊢
  exact le_trans h2 h1

theorem claimLe_total : ∀ x y : Claim, claimLe x y = false → claimLe y x = true := by
  intro x y h
  simp only [claimLe, decide_eq_false_iff_not, not_le] at h
  simp only [claimLe, decide_eq_true_eq]
  exact le_of_lt h

theorem claimLe_trans : ∀ x y z : Claim,
    claimLe x y = true → claimLe y z = true → claimLe x z = true := by
  intro x y z h1 h2
  simp only [claimLe, decide_eq_true_eq] at h1 h2 ⊢
  exact le_trans h2 h1

theorem aggRows_tag_pairwise (recs : List OversightRecord) :
    (aggRows recs).Pairwise (fun a b => strLtb a.tag b.tag = true) := by
  rw [aggRows, List.pairwise_map]
  have h1 : (sortKeys ((recs.map OversightRecord.tag).dedup)).Pairwise
      (fun x y => strLeb x y = true) :=
    sortBy_sorted strLeb strLeb_total strLeb_trans _
  have h2 : (sortKeys ((recs.map OversightRecord.tag).dedup)).Pairwise
      (fun x y => x ≠ y) :=
    sortKeys_nodup _ (List.nodup_dedup _)
  exact (h1.and h2).imp (fun h => strLtb_of_leb_of_ne h.1 h.2)

theorem oversight_analysis_ordered (recs : List OversightRecord) :
    (oversight_analysis recs).Pairwise (fun a b =>
      b.total < a.total ∨ (b.total = a.total ∧ strLtb a.tag b.tag = true)) := by
  have hst := sortBy_stable rowLe (aggRows recs) (aggRows_tag_pairwise recs)
  have hso := sortBy_sorted rowLe rowLe_total rowLe_trans (aggRows recs)
  refine (hst.and hso).imp ?_
  rintro a b ⟨h1, h2⟩
  have hba : b.total ≤ a.total := by
    simpa [rowLe, decide_eq_true_eq] using h2
  rcases h1 with h1 | h1
  · left
    have : ¬ a.total ≤ b.total := by
      simpa [rowLe, decide_eq_false_iff_not] using h1
    exact lt_of_not_le this
  · by_cases hlt : b.total < a.total
    · exact Or.inl hlt
    · exact Or.inr ⟨le_antisymm hba (not_lt.mp hlt), h1⟩

theorem oversight_loss_data_cid (sw : List (List Char)) (claims : List Claim) :
    ∀ r ∈ oversight_loss_data sw claims, r.cid ∈ claims.map Claim.claim_id := by
  intro r hr
  rcases List.mem_flatMap.mp hr with ⟨c, hc, hrc⟩
  rcases List.mem_map.mp hrc with ⟨t, _, rfl⟩
  exact List.mem_map.mpr ⟨c, List.mem_of_mem_filter hc, rfl⟩

/-! ### Concrete inputs used by witnesses and counterexamples -/

/-- A small sample stopword set (the theorems hold for every stopword
set; concrete checks use this one). -/
def sw0 : List (List Char) := [("the").toList, ("to").toList, ("a").toList]

/-- A claim with a NULL narrative and valid coordinates. -/
def cNull : Claim :=
  { claim_id := "CL-1", allegation := none, incident_type := "Slip & Fall",
    division := "Public Works", settlement := 60000, legal := 5000,
    latitude := some 41, longitude := some (-87) }

/-- A claim with a keyword-bearing narrative but a NULL latitude. -/
def cNoGeo : Claim :=
  { claim_id := "CL-2", allegation := some (("pothole damage").toList),
    incident_type := "Vehicle Damage", division := "Transit",
    settlement := 10, legal := 2, latitude := none, longitude := some (-87) }

/-- A claim whose cleaned narrative hits exactly the keyword `repair`. -/
def cRep : Claim :=
  { claim_id := "A1", allegation := some (("repair").toList),
    incident_type := "t", division := "d", settlement := 10, legal := 0,
    latitude := none, longitude := none }

/-- A claim whose cleaned narrative hits exactly the keyword
`maintenance`, with the same total loss as `cRep`. -/
def cMai : Claim :=
  { claim_id := "A2", allegation := some (("maintenance").toList),
    incident_type := "t", division := "d", settlement := 10, legal := 0,
    latitude := none, longitude := none }

/-- A one-record input for the aggregator. -/
def c10recs : List OversightRecord :=
  [{ tag := "repair", loss := 10, cid := "A1", division := "d" }]

/-- Default row used only as the `headD` fallback. -/
def row0 : AggRow := { tag := "", total := 0, count := 0 }

/-! ### Claim theorems -/

/-- Claim C1: on the empty claim set every aggregation of the pipeline
returns an empty result, but the console summary does not report a zero
detection rate: the detection-rate expression
`len(df_oversights) / len(df) * 100` divides by `len(df) = 0` and raises
`ZeroDivisionError` (text_analysis.py line 182), so the claimed
guarantee fails on the code. -/
theorem c1_empty_claim_set (sw : List (List Char)) :
    all_words sw [] = []
    ∧ oversight_loss_data sw [] = []
    ∧ oversight_analysis (oversight_loss_data sw []) = []
    ∧ df_valid_geo ([] : List Claim) = []
    ∧ high_loss_claims [] = []
    ∧ detection_rate sw [] = Except.error ("ZeroDivisionError") :=
  ⟨rfl, rfl, rfl, rfl, rfl, rfl⟩

/-- Claim C2: a NULL narrative is recovered as the empty cleaned text
and the claim flows through tagging and the financial stage without
error, and a NULL coordinate excludes a claim from the geospatial stage
only; but if a NULL-narrative claim is selected for the map, the popup
construction slices `None` (`row['Allegation_Details'][:400]`,
text_analysis.py line 384) and raises `TypeError`, so the
"map rendering without error" part fails on the code. -/
theorem c2_per_record_faults :
    clean_text sw0 cNull.allegation = []
    ∧ tags_of sw0 cNull = []
    ∧ oversight_loss_data sw0 [cNull] = []
    ∧ df_valid_geo [cNull, cNoGeo] = [cNull]
    ∧ tags_of sw0 cNoGeo = ["pothole"]
    ∧ oversight_loss_data sw0 [cNoGeo] =
        [{ tag := "pothole", loss := totalLoss cNoGeo, cid := "CL-2",
           division := "Transit" }]
    ∧ high_loss_claims [cNull] = [cNull]
    ∧ renderMarkers (high_loss_claims [cNull]) = Except.error ("TypeError") :=
  ⟨rfl, by decide, rfl, by decide, by decide, rfl, by decide, rfl⟩

/-- Claim C5: the tagger returns exactly the keywords of the fixed
taxonomy that occur as substrings of the cleaned text, in taxonomy
declaration order (a sublist of the taxonomy); it is a pure function
(deterministic), and the empty cleaned text yields no tags. -/
theorem c5_tagger_contract (t : List Char) :
    (∀ k, k ∈ identified_oversights t ↔
        (k ∈ oversight_keywords ∧ ∃ l r, t = l ++ k.toList ++ r))
    ∧ (identified_oversights t).Sublist oversight_keywords
    ∧ (∀ t' : List Char, t = t' → identified_oversights t = identified_oversights t')
    ∧ identified_oversights [] = [] := by
  refine ⟨?_, List.filter_sublist _, fun t' h => h ▸ rfl, by decide⟩
  intro k
  rw [identified_oversights, List.mem_filter, substrOf_iff]

/-- Witness for C5 at a concrete text. -/
theorem c5_tagger_contract_witness :
    "pothole" ∈ identified_oversights (("deep pothole").toList) :=
  ((c5_tagger_contract (("deep pothole").toList)).1 "pothole").mpr
    ⟨by decide, ("deep ").toList, [], by decide⟩

/-- Claim C6: the normalizer maps a NULL input to the empty string and
any input to the space-join of its token list; the token list preserves
the order of the split input (a sublist of it), and every token has
length at least 2, is outside the stopword set, and consists of
lowercase ASCII letters only. -/
theorem c6_normalizer_contract (sw : List (List Char)) (x : List Char) :
    clean_text sw none = []
    ∧ clean_text sw (some x) = joinWords (clean_tokens sw x)
    ∧ (clean_tokens sw x).Sublist (pySplit ((x.map pyLower).filter keepChar))
    ∧ ∀ w ∈ clean_tokens sw x,
        1 < w.length ∧ w ∉ sw ∧ ∀ c ∈ w, isLowerAZ c = true :=
  ⟨rfl, rfl, List.filter_sublist _, clean_tokens_spec sw x⟩

/-- Witness for C6 at a concrete input. -/
theorem c6_normalizer_contract_witness :
    1 < (("pothole").toList).length
    ∧ ("pothole").toList ∉ sw0
    ∧ ∀ c ∈ ("pothole").toList, isLowerAZ c = true :=
  (c6_normalizer_contract sw0 (("The NEW pothole 3x!").toList)).2.2.2
    (("pothole").toList) (by decide)

/-- Claim C7: the normalizer is idempotent: cleaning an already-cleaned
string returns it unchanged, for every input string and every stopword
set. -/
theorem c7_normalizer_idempotent (sw : List (List Char)) (x : List Char) :
    clean_text sw (some (clean_text sw (some x))) = clean_text sw (some x) :=
  clean_text_idem_aux sw x

/-- Claim C9: the Total_Loss used by the root-cause analysis (computed
in the SQL query) and the one used by the KPI module (recomputed in
pandas) both equal Settlement_Amount + Legal_Costs exactly; the claims
table stores no Total_Loss column (the `Claim` record has no such
field), and Total_Loss is non-negative whenever its two addends are,
which the data model guarantees. -/
theorem c9_total_loss_invariant (c : Claim) :
    totalLoss c = c.settlement + c.legal
    ∧ kpi_total_loss c = totalLoss c
    ∧ (0 ≤ c.settlement → 0 ≤ c.legal → 0 ≤ totalLoss c) :=
  ⟨rfl, rfl, fun h1 h2 => add_nonneg h1 h2⟩

/-- Witness for C9 at a concrete claim. -/
theorem c9_total_loss_invariant_witness : 0 ≤ totalLoss cNull :=
  (c9_total_loss_invariant cNull).2.2 (by decide) (by decide)

/-- The two (claim, tag) records produced by `[cRep, cMai]`, with the
losses evaluated. -/
def c3recsLit : List OversightRecord :=
  [{ tag := "repair", loss := 10, cid := "A1", division := "d" },
   { tag := "maintenance", loss := 10, cid := "A2", division := "d" }]

/-- Claim C3 (counterexample): on two claims with equal total loss
tagged `repair` (first seen, taxonomy position 2) and `maintenance`
(taxonomy position 3), the aggregator orders the tie alphabetically as
`maintenance, repair` — `groupby` pre-sorts the keys — and not in the
input/taxonomy order `repair, maintenance`, so the claimed tie-break is
false. -/
theorem c3_counterexample :
    (oversight_loss_data sw0 [cRep, cMai]).map OversightRecord.tag
        = ["repair", "maintenance"]
    ∧ (oversight_loss_data sw0 [cRep, cMai]).map OversightRecord.loss = [10, 10]
    ∧ (oversight_analysis (oversight_loss_data sw0 [cRep, cMai])).map AggRow.total
        = [10, 10]
    ∧ (oversight_analysis (oversight_loss_data sw0 [cRep, cMai])).map AggRow.tag
        = ["maintenance", "repair"]
    ∧ (oversight_analysis (oversight_loss_data sw0 [cRep, cMai])).map AggRow.tag
        ≠ (oversight_loss_data sw0 [cRep, cMai]).map OversightRecord.tag := by
  have h0 : oversight_loss_data sw0 [cRep, cMai] =
      [{ tag := "repair", loss := totalLoss cRep, cid := "A1", division := "d" },
       { tag := "maintenance", loss := totalLoss cMai, cid := "A2", division := "d" }] := rfl
  have h1 : oversight_loss_data sw0 [cRep, cMai] = c3recsLit := by
    rw [h0]
    norm_num [c3recsLit, totalLoss, cRep, cMai]
  have hk : sortKeys ((c3recsLit.map OversightRecord.tag).dedup)
      = ["maintenance", "repair"] := by decide
  have hs1 : c3recsLit.filter (fun r => r.tag == "maintenance") =
      [{ tag := "maintenance", loss := 10, cid := "A2", division := "d" }] := by decide
  have hs2 : c3recsLit.filter (fun r => r.tag == "repair") =
      [{ tag := "repair", loss := 10, cid := "A1", division := "d" }] := by decide
  have hrows : aggRows c3recsLit =
      [{ tag := "maintenance", total := 10, count := 1 },
       { tag := "repair", total := 10, count := 1 }] := by
    rw [aggRows, hk]
    simp only [List.map_cons, List.map_nil, hs1, hs2, List.sum_cons, List.sum_nil]
    norm_num
  have hsort : sortBy rowLe
      [({ tag := "maintenance", total := 10, count := 1 } : AggRow),
       { tag := "repair", total := 10, count := 1 }] =
      [{ tag := "maintenance", total := 10, count := 1 },
       { tag := "repair", total := 10, count := 1 }] := by decide
  have h2 : oversight_analysis (oversight_loss_data sw0 [cRep, cMai]) =
      [{ tag := "maintenance", total := 10, count := 1 },
       { tag := "repair", total := 10, count := 1 }] := by
    rw [h1, oversight_analysis, hrows, hsort]
  refine ⟨by rw [h1]; rfl, by rw [h1]; rfl, by rw [h2]; rfl, by rw [h2]; rfl, ?_⟩
  rw [h2, h1]
  decide

/-- Claim C3 (amended): the aggregator's rows are ordered by total loss
descending, and two rows with equal total loss appear in ascending
code-point (alphabetical) order of the tag — the order `groupby` gives
its keys — not in input/taxonomy order. -/
theorem c3_sort_order_amended (recs : List OversightRecord) (_h : recs ≠ []) :
    (oversight_analysis recs).Pairwise (fun a b =>
      b.total < a.total ∨ (b.total = a.total ∧ strLtb a.tag b.tag = true)) :=
  oversight_analysis_ordered recs

/-- Witness for the amended C3 at a concrete record list. -/
theorem c3_sort_order_amended_witness :
    (oversight_analysis c3recsLit).Pairwise (fun a b =>
      b.total < a.total ∨ (b.total = a.total ∧ strLtb a.tag b.tag = true)) :=
  c3_sort_order_amended c3recsLit (by decide)

/-- Claim C4: every output row's distinct-claim count is at most the
number of claims; with non-negative losses (guaranteed by the data
model) the sum of per-tag totals is at least the total loss of the
tagged claims, because a claim with k tags contributes its loss k
times, and the two sums agree exactly when no claim carries more than
one tag. -/
theorem c4_aggregation_relations (sw : List (List Char)) (claims : List Claim) :
    (∀ row ∈ oversight_analysis (oversight_loss_data sw claims),
        row.count ≤ claims.length)
    ∧ ((∀ c ∈ claims, 0 ≤ totalLoss c) →
        ((df_oversights sw claims).map totalLoss).sum
          ≤ ((oversight_analysis (oversight_loss_data sw claims)).map AggRow.total).sum)
    ∧ ((∀ c ∈ claims, (tags_of sw c).length ≤ 1) →
        ((oversight_analysis (oversight_loss_data sw claims)).map AggRow.total).sum
          = ((df_oversights sw claims).map totalLoss).sum) := by
  refine ⟨?_, ?_, ?_⟩
  · intro row hrow
    have hmem : row ∈ aggRows (oversight_loss_data sw claims) :=
      ((sortBy_perm rowLe _).mem_iff).mp hrow
    have h := aggRows_count_le (oversight_loss_data sw claims)
      (claims.map Claim.claim_id) (oversight_loss_data_cid sw claims) row hmem
    simpa using h
  · intro hnn
    rw [oversight_analysis_total_sum, oversight_loss_data, flatMap_loss_sum]
    apply List.sum_le_sum
    intro c hc
    have hc2 : c ∈ claims := List.mem_of_mem_filter hc
    have hlen : 0 < (tags_of sw c).length := by
      have h := (List.mem_filter.mp hc).2
      simpa using h
    have h1 : (1 : ℚ) ≤ ((tags_of sw c).length : ℚ) := by exact_mod_cast hlen
    calc totalLoss c = 1 * totalLoss c := (one_mul _).symm
      _ ≤ ((tags_of sw c).length : ℚ) * totalLoss c :=
        mul_le_mul_of_nonneg_right h1 (hnn c hc2)
  · intro h1tag
    rw [oversight_analysis_total_sum, oversight_loss_data, flatMap_loss_sum]
    apply congrArg List.sum
    apply List.map_congr_left
    intro c hc
    have hc2 : c ∈ claims := List.mem_of_mem_filter hc
    have hlen : 0 < (tags_of sw c).length := by
      have h := (List.mem_filter.mp hc).2
      simpa using h
    have hone : (tags_of sw c).length = 1 :=
      le_antisymm (h1tag c hc2) hlen
    rw [hone]
    simp

/-- Witness for C4 at a concrete claim set. -/
theorem c4_aggregation_relations_witness :
    ((df_oversights sw0 [cRep, cMai]).map totalLoss).sum
      ≤ ((oversight_analysis (oversight_loss_data sw0 [cRep, cMai])).map AggRow.total).sum
    ∧ ((oversight_analysis (oversight_loss_data sw0 [cRep, cMai])).map AggRow.total).sum
      = ((df_oversights sw0 [cRep, cMai]).map totalLoss).sum :=
  ⟨(c4_aggregation_relations sw0 [cRep, cMai]).2.1 (by
      intro c hc
      fin_cases hc <;> norm_num [totalLoss, cRep, cMai]),
   (c4_aggregation_relations sw0 [cRep, cMai]).2.2 (by decide)⟩

/-- Claim C8: the geospatial selection contains only claims with both
coordinates present, has size min(200, number of valid-geo claims), is
sorted by Total_Loss descending, consists of the 200 largest (every
unselected valid-geo claim has total loss at most that of every
selected one, and selection plus remainder is a permutation of the
valid-geo claims), and ties keep the original frame order (for each
loss value the sorted order restricted to that value is the original
order). -/
theorem c8_geo_selection (claims : List Claim) :
    (∀ c ∈ high_loss_claims claims,
        c.latitude.isSome = true ∧ c.longitude.isSome = true)
    ∧ (high_loss_claims claims).length = min 200 (df_valid_geo claims).length
    ∧ (high_loss_claims claims).Pairwise (fun a b => totalLoss b ≤ totalLoss a)
    ∧ (∀ a ∈ high_loss_claims claims,
        ∀ b ∈ (sortBy claimLe (df_valid_geo claims)).drop 200,
          totalLoss b ≤ totalLoss a)
    ∧ (high_loss_claims claims ++
        (sortBy claimLe (df_valid_geo claims)).drop 200).Perm (df_valid_geo claims)
    ∧ (∀ v : ℚ,
        (sortBy claimLe (df_valid_geo claims)).filter (fun c => decide (totalLoss c = v))
          = (df_valid_geo claims).filter (fun c => decide (totalLoss c = v))) := by
  have hsorted := sortBy_sorted claimLe claimLe_total claimLe_trans (df_valid_geo claims)
  have hperm := sortBy_perm claimLe (df_valid_geo claims)
  refine ⟨?_, ?_, ?_, ?_, ?_, ?_⟩
  · intro c hc
    have hc2 : c ∈ df_valid_geo claims :=
      hperm.mem_iff.mp (List.take_subset 200 _ hc)
    have h := (List.mem_filter.mp hc2).2
    rcases Bool.and_eq_true_iff.mp h with ⟨h1, h2⟩
    exact ⟨h1, h2⟩
  · rw [high_loss_claims, List.length_take, hperm.length_eq]
  · have h := List.Pairwise.sublist (List.take_sublist 200 _) hsorted
    exact h.imp (fun hab => by simpa [claimLe, decide_eq_true_eq] using hab)
  · intro a ha b hb
    rw [← List.take_append_drop 200 (sortBy claimLe (df_valid_geo claims))] at hsorted
    rcases List.pairwise_append.mp hsorted with ⟨_, _, hcross⟩
    have h := hcross a ha b hb
    simpa [claimLe, decide_eq_true_eq] using h
  · rw [high_loss_claims, List.take_append_drop]
    exact hperm
  · intro v
    apply filter_sortBy
    intro x y hx hy
    simp only [decide_eq_true_eq] at hx hy
    simp [claimLe, hx, hy]

/-- Witness for C8 at a concrete claim set. -/
theorem c8_geo_selection_witness :
    cNull.latitude.isSome = true ∧ cNull.longitude.isSome = true :=
  (c8_geo_selection [cNull]).1 cNull (by decide)

/-- Claim C10: every output row of the financial aggregator counts at
least one distinct claim, so the average-loss column (total divided by
count) never divides by zero, and it satisfies avg * count = total. -/
theorem c10_avg_well_defined (recs : List OversightRecord) :
    ∀ row ∈ oversight_analysis recs,
      1 ≤ row.count
      ∧ avg_loss_per_claim row = row.total / (row.count : ℚ)
      ∧ avg_loss_per_claim row * (row.count : ℚ) = row.total := by
  intro row hrow
  have hmem : row ∈ aggRows recs :=
    ((sortBy_perm rowLe (aggRows recs)).mem_iff).mp hrow
  have h1 := aggRows_count_pos recs row hmem
  refine ⟨h1, rfl, ?_⟩
  rw [avg_loss_per_claim, div_mul_cancel₀]
  exact Nat.cast_ne_zero.mpr (by omega)

/-- Witness for C10 at a concrete record list. -/
theorem c10_avg_well_defined_witness :
    1 ≤ ((oversight_analysis c10recs).headD row0).count := by
  have h : oversight_analysis c10recs
      = ((oversight_analysis c10recs).headD row0) :: [] := rfl
  have hm : ((oversight_analysis c10recs).headD row0) ∈ oversight_analysis c10recs := by
    conv_rhs => rw [h]
    exact List.mem_cons_self _ _
  exact (c10_avg_well_defined c10recs _ hm).1
